import Mathlib

/-
Shallow embedding of `buffered_tree.c` (helloyou2012/C-Buffered-tree).

The C program implements a buffered search tree with three nested
entities: payloads (key/value/kind records in a sorted singly linked
chain), containers (a payload chain plus an optional child node), and
nodes (an ordered array of containers).  The tree handle stores the root
node, the height, an `is_migrated` flag and two global payload counters.

Modelling decisions, all taken from the source:
- pointers and in-place mutation become pure data and explicit state
  passing; a payload chain is a `List`, a node's growable container
  array is a `List` (the capacity/realloc management of
  `insert_after_container` only affects memory, not the abstract
  sequence of containers);
- the caller-supplied total-order comparator `key_compare` becomes a
  `LinearOrder` instance on the key type; `compare(a, b) < 0`, `== 0`,
  `<= 0` are embedded as `a < b`, `a = b`, `a ≤ b`;
- the caller-supplied destructors are modelled as instrumentation
  counters (`key_dtor_calls`, `val_dtor_calls`) recording how often the
  key and value destructors would have been invoked, for a run with
  counting destructors installed and non-null keys (as in the C test
  harness `main`); a `Del` payload carries `val = none` (NULL), so its
  value destructor is never invoked, exactly as in `payload_free`;
- the `uint32_t` payload counters of `struct bftree` are `Nat` together
  with an explicit wrapping decrement `u32dec` (the C code decrements
  them with `--` on `uint32_t`, which wraps at zero);
- `container_insert` can enter its overflow branch (lines 413-418 of
  the source: `push_to_child` / `split_container`, which in turn reach
  `try_split_node` and `order_container_payload`).  The embedding
  returns `none` exactly when that branch is entered, i.e. when
  `payload_size > threshold && is_migrated`.  It is proved below
  (`runOps_spec`) that for every sequence of public operations starting
  from `bftree_create` this branch is never entered, because
  `is_migrated` is 0 at `bftree_create` and is only ever set inside
  `order_container_payload`, which itself is only reachable from that
  branch.  So `none` never occurs in a reachable execution and the
  embedding is total on the reachable states;
- the decision logic of `push_to_child` (lines 244-272), which the
  above shows is dead code for public operations, is embedded
  separately (`push_to_child_loop`, `push_to_child_skip`,
  `push_to_child_pass`) to settle the claim about its delete-suppression
  gating.  The C local `int skip_delete` is only assigned when
  `del_payload_count > put_payload_count`; otherwise it keeps its
  indeterminate initial value, which the embedding makes explicit as
  the `junk` parameter.  The C loop advances `curr_payload` only in the
  non-discard branch; after `payload_free(tree, curr_payload)` the next
  iteration reads the freed payload again.  The embedding gives the
  freed memory read its last written value, so the loop body sees the
  same payload again, mirroring the control flow of the source.
-/

namespace BufferedTree

/-- Operation kind of a payload: `enum payload_type { Put, Del }`. -/
inductive PType : Type where
  | Put : PType
  | Del : PType
deriving DecidableEq, Repr

/-- A payload: `struct payload` with owned key, optional owned value
(NULL for `Del`, modelled as `none`) and operation kind.  The `next`
link is absorbed into the enclosing `List`. -/
structure Payload (α β : Type) where
  key : α
  val : Option β
  type : PType
deriving DecidableEq, Repr

mutual
/-- A node: `struct node` with its ordered container array.  The
`parent` back-reference and the capacity field are memory-management
bookkeeping with no abstract content and are not represented. -/
inductive Node (α β : Type) : Type where
  | mk (containers : List (Container α β)) : Node α β

/-- A container: `struct container` with its payload chain
(`payload_first`), its payload counter (`payload_size`, kept as a
separate field exactly as in the source) and its optional child node. -/
inductive Container (α β : Type) : Type where
  | mk (payload_first : List (Payload α β)) (payload_size : Nat)
       (child : Option (Node α β)) : Container α β
end

/-- Container array of a node. -/
def Node.containers {α β : Type} : Node α β → List (Container α β)
  | .mk cs => cs

/-- Payload chain of a container. -/
def Container.payload_first {α β : Type} : Container α β → List (Payload α β)
  | .mk ch _ _ => ch

/-- Payload counter of a container. -/
def Container.payload_size {α β : Type} : Container α β → Nat
  | .mk _ n _ => n

/-- Child node of a container. -/
def Container.child {α β : Type} : Container α β → Option (Node α β)
  | .mk _ _ c => c

/-- The four global counters of the embedding: the two `uint32_t`
payload counters of `struct bftree`, plus the two instrumentation
counters recording invocations of the key and value destructors. -/
structure TreeCtrs : Type where
  put_payload_count : Nat
  del_payload_count : Nat
  key_dtor_calls : Nat
  val_dtor_calls : Nat
deriving DecidableEq, Repr

/-- The tree handle: `struct bftree` (root, height, `is_migrated`, the
counters).  The `opts` pointer is the `LinearOrder` instance plus the
counting destructors, see the file comment. -/
structure BFTree (α β : Type) where
  root : Node α β
  height : Nat
  is_migrated : Bool
  ctrs : TreeCtrs

variable {α β : Type} [LinearOrder α] [Inhabited α]

/-- Wrapping decrement of a `uint32_t` counter (the C `--` operator). -/
def u32dec (n : Nat) : Nat :=
  if n = 0 then 4294967295 else n - 1

/-- `payload_create(key, val, type)`: build a payload. -/
def payload_create (key : α) (val : Option β) (type : PType) : Payload α β :=
  { key := key, val := val, type := type }

/-- `payload_free(tree, payload)`: invoke the key destructor (keys are
non-null), invoke the value destructor when `val` is non-null, and
decrement the matching payload counter.  Only the counter effects are
observable in the embedding. -/
def payload_free (c : TreeCtrs) (p : Payload α β) : TreeCtrs :=
  { put_payload_count :=
      if p.type = PType.Put then u32dec c.put_payload_count else c.put_payload_count
    del_payload_count :=
      if p.type = PType.Put then c.del_payload_count else u32dec c.del_payload_count
    key_dtor_calls := c.key_dtor_calls + 1
    val_dtor_calls := c.val_dtor_calls + (if p.val.isSome then 1 else 0) }

/-- `payload_replace(tree, older, newer)`: overwrite `older`'s value and
kind with `newer`'s, swap the old value into `newer`, and free `newer`
(destructing the new key and the old value).  Returns the updated
in-place payload and the counter effects. -/
def payload_replace (c : TreeCtrs) (older newer : Payload α β) :
    Payload α β × TreeCtrs :=
  ({ older with val := newer.val, type := newer.type },
   payload_free c { newer with val := older.val })

/-- `get_payload`'s scanning loop (lines 219-242): walk the chain with
the running predecessor; stop at the first payload whose key is not
below the query key. -/
def get_payload_loop (key : α) (prev : Option (Payload α β)) :
    List (Payload α β) → Option (Payload α β) × Bool
  | [] => (prev, false)
  | curr :: rest =>
    if key ≤ curr.key then
      if key = curr.key then (some curr, true) else (prev, false)
    else get_payload_loop key (some curr) rest

/-- `get_payload(compare, payload_start, key, &is_equal)`: returns the
equal payload with `is_equal = true`, or the greatest strictly smaller
predecessor (or `none`) with `is_equal = false`. -/
def get_payload (key : α) (chain : List (Payload α β)) :
    Option (Payload α β) × Bool :=
  get_payload_loop key none chain

/-- The chain-level effect of `container_insert` lines 394-411: scan as
in `get_payload` and either replace in place (`payload_replace`, equal
key) or splice the new payload after the predecessor.  Returns the new
chain, the counter effects and the `is_equal` flag (which decides
whether `payload_size` is incremented). -/
def chain_splice (c : TreeCtrs) (p : Payload α β) :
    List (Payload α β) → List (Payload α β) × TreeCtrs × Bool
  | [] => ([p], c, false)
  | curr :: rest =>
    if p.key ≤ curr.key then
      if p.key = curr.key then
        ((payload_replace c curr p).1 :: rest, (payload_replace c curr p).2, true)
      else (p :: curr :: rest, c, false)
    else
      ((chain_splice c p rest).1.cons curr, (chain_splice c p rest).2.1,
       (chain_splice c p rest).2.2)

/-- `insert_after_container(node, container, container_idx)` (lines
111-127): append into an empty array, otherwise insert at position
`container_idx + 1`. -/
def insert_after_container (cs : List (Container α β)) (c : Container α β)
    (container_idx : Nat) : List (Container α β) :=
  if cs.length = 0 then [c]
  else cs.take (container_idx + 1) ++ c :: cs.drop (container_idx + 1)

/-- Separator key of a container: `container->payload_first->key`.  The
C code dereferences the head unconditionally; on an empty chain (which
invariant P2 rules out) the embedding returns `default`. -/
def Container.sep (c : Container α β) : α :=
  match c.payload_first with
  | [] => default
  | p :: _ => p.key

/-- The scanning loop of `find_container` (lines 196-201), embedded over
the remaining suffix of the container array together with the running
index: stop at the first container whose separator is above the key. -/
def find_container_loop (key : α) : List (Container α β) → Nat → Nat
  | [], i => i
  | c :: rest, i => if key < c.sep then i else find_container_loop key rest (i + 1)

/-- `find_container(compare, node, key, start_container)` (lines
190-206): scan from `start_container`; return the index before the stop
position, clamped to 0. -/
def find_container (node : Node α β) (key : α) (start_container : Nat) : Nat :=
  let i := find_container_loop key (node.containers.drop start_container) start_container
  if i = 0 then 0 else i - 1

omit [LinearOrder α] [Inhabited α] in
/-- Eta rule for the single-constructor node type. -/
theorem node_eta (n : Node α β) : Node.mk n.containers = n := by
  cases n
  rfl

omit [LinearOrder α] [Inhabited α] in
/-- Helper for the termination of the recursion through child nodes:
a container is bigger than its child node. -/
theorem sizeOf_child_lt_container [SizeOf α] [SizeOf β]
    {c : Container α β} {ch : Node α β} (hch : c.child = some ch) :
    sizeOf ch < sizeOf c := by
  cases c with
  | mk ch0 n0 child0 =>
    cases child0 with
    | none => simp [Container.child] at hch
    | some ch1 =>
      simp only [Container.child] at hch
      injection hch with hch1
      subst hch1
      simp
      omega

omit [LinearOrder α] [Inhabited α] in
/-- Helper for the termination of the recursion through child nodes:
a node is bigger than any child node of one of its containers. -/
theorem sizeOf_child_lt [SizeOf α] [SizeOf β] {cs : List (Container α β)}
    {c : Container α β} {ch : Node α β} (hc : c ∈ cs) (hch : c.child = some ch) :
    sizeOf ch < sizeOf (Node.mk cs) := by
  have h1 : sizeOf c < sizeOf cs := List.sizeOf_lt_of_mem hc
  have h2 : sizeOf ch < sizeOf c := sizeOf_child_lt_container hch
  simp
  omega

/-- `container_get(tree, node, container_idx, key)` (lines 423-448):
out-of-range index is NotFound; an equal payload answers directly (Put:
found, Del: NotFound, without descending); otherwise descend into the
child located by `find_container`, or report NotFound at a leaf. -/
def container_get (node : Node α β) (container_idx : Nat) (key : α) :
    Option (Payload α β) :=
  match hg : node.containers.get? container_idx with
  | none => none
  | some container =>
    match get_payload key container.payload_first with
    | (some curr, true) => if curr.type = PType.Put then some curr else none
    | (none, true) => none
    | (_, false) =>
      match hc : container.child with
      | some child =>
        container_get child (find_container child key 0) key
      | none => none
termination_by sizeOf node
decreasing_by
  have h1 := sizeOf_child_lt (List.get?_mem hg) hc
  rw [node_eta] at h1
  exact h1

/-- `container_insert(tree, node, container_idx, new_payload)` (lines
378-421).  When `container_idx` is past the end a fresh empty container
is created and placed by `insert_after_container(node, target, 0)`; the
embedding records the position where that call actually puts it (0 in
an empty array, 1 otherwise).  Then the payload is spliced into the
target chain (`chain_splice`), `payload_size` is incremented unless an
equal key was replaced in place, and the overflow branch
(`payload_size > threshold && is_migrated`, lines 413-418) is signalled
by returning `none` (see the file comment). -/
def container_insert (thr : Nat) (is_migrated : Bool) (c : TreeCtrs)
    (node : Node α β) (container_idx : Nat) (new_payload : Payload α β) :
    Option (Node α β × TreeCtrs) :=
  let cs := node.containers
  let cs2 := if container_idx ≥ cs.length then
      insert_after_container cs (Container.mk [] 0 none) 0
    else cs
  let tidx := if container_idx ≥ cs.length then
      (if cs.length = 0 then 0 else 1)
    else container_idx
  let target := cs2.getD tidx (Container.mk [] 0 none)
  let spliced := chain_splice c new_payload target.payload_first
  let new_size := if spliced.2.2 then target.payload_size else target.payload_size + 1
  let target2 := Container.mk spliced.1 new_size target.child
  if new_size > thr ∧ is_migrated then none
  else some (Node.mk (cs2.set tidx target2), spliced.2.1)

/-- `bftree_create(opts)`: empty root node, height 1, `is_migrated` 0,
both payload counters 0 (and no destructor calls yet). -/
def bftree_create : BFTree α β :=
  { root := Node.mk [], height := 1, is_migrated := false,
    ctrs := { put_payload_count := 0, del_payload_count := 0,
              key_dtor_calls := 0, val_dtor_calls := 0 } }

/-- `bftree_put(tree, key, val)` (lines 450-460): create a Put payload,
locate the root container, insert. -/
def bftree_put (thr : Nat) (t : BFTree α β) (key : α) (val : β) :
    Option (BFTree α β) :=
  let new_payload : Payload α β := payload_create key (some val) PType.Put
  let idx := find_container t.root new_payload.key 0
  match container_insert thr t.is_migrated t.ctrs t.root idx new_payload with
  | none => none
  | some (root2, c2) => some { t with root := root2, ctrs := c2 }

/-- `bftree_del(tree, key)` (lines 476-486): create a Del payload with
NULL value, locate the root container, insert. -/
def bftree_del (thr : Nat) (t : BFTree α β) (key : α) : Option (BFTree α β) :=
  let new_payload : Payload α β := payload_create key none PType.Del
  let idx := find_container t.root new_payload.key 0
  match container_insert thr t.is_migrated t.ctrs t.root idx new_payload with
  | none => none
  | some (root2, c2) => some { t with root := root2, ctrs := c2 }

/-- `bftree_get(tree, key)` (lines 462-474): locate the root container,
run `container_get`, return the found payload's value (NULL when not
found). -/
def bftree_get (t : BFTree α β) (key : α) : Option β :=
  match container_get t.root (find_container t.root key 0) key with
  | some r => r.val
  | none => none

/-- A public operation of the tree API. -/
inductive Op (α β : Type) : Type where
  | put (key : α) (val : β) : Op α β
  | del (key : α) : Op α β
  | get (key : α) : Op α β

/-- Apply one public operation.  `bftree_get` does not mutate the
tree. -/
def applyOp (thr : Nat) (t : BFTree α β) : Op α β → Option (BFTree α β)
  | .put k v => bftree_put thr t k v
  | .del k => bftree_del thr t k
  | .get _ => some t

/-- Run a sequence of public operations from `bftree_create`.  The
result is `none` exactly when some operation reaches the overflow
branch of `container_insert` (which would call `push_to_child` or
`split_container`). -/
def runOps (thr : Nat) (ops : List (Op α β)) : Option (BFTree α β) :=
  List.foldlM (applyOp thr) bftree_create ops

mutual
/-- The payloads released by `bftree_free(tree)` in release order
(lines 142-188): for each node, the subtrees hanging off its containers
are freed first (`bftree_free_node` recursion), then `node_free` frees
each container's own chain in container order.  This list also
enumerates exactly the live payloads of the (sub)tree. -/
def bftree_free_node : Node α β → List (Payload α β)
  | .mk cs => free_children cs ++ cs.flatMap Container.payload_first
termination_by n => sizeOf n
decreasing_by
  simp

/-- Recursion of `bftree_free_node` over a node's container array: a
container's child subtree is freed before the following containers are
visited. -/
def free_children : List (Container α β) → List (Payload α β)
  | [] => []
  | Container.mk _ _ (some ch) :: rest => bftree_free_node ch ++ free_children rest
  | Container.mk _ _ none :: rest => free_children rest
termination_by cs => sizeOf cs
decreasing_by
  all_goals simp
  all_goals omega
end

/-- `bftree_free(tree)`: release every payload of the tree through
`payload_free`, in the release order of the source; the observable
result is the final counter state. -/
def bftree_free (t : BFTree α β) : TreeCtrs :=
  (bftree_free_node t.root).foldl payload_free t.ctrs

mutual
/-- All nodes reachable from a node (itself included), via the child
pointers of its containers. -/
def Node.allNodes : Node α β → List (Node α β)
  | .mk cs => Node.mk cs :: allNodes_children cs
termination_by n => sizeOf n
decreasing_by
  simp

/-- Recursion of `Node.allNodes` over a node's container array. -/
def allNodes_children : List (Container α β) → List (Node α β)
  | [] => []
  | Container.mk _ _ (some ch) :: rest => Node.allNodes ch ++ allNodes_children rest
  | Container.mk _ _ none :: rest => allNodes_children rest
termination_by cs => sizeOf cs
decreasing_by
  all_goals simp
  all_goals omega
end

/-- The live payloads of the tree rooted at a node. -/
def livePayloads (n : Node α β) : List (Payload α β) :=
  n.allNodes.flatMap fun m => m.containers.flatMap Container.payload_first

/-- Strict within-chain order: invariant P1, asserted by
`validate_containers` (line 501). -/
def GoodChain (ch : List (Payload α β)) : Prop :=
  ch.Chain' fun p q => p.key < q.key

/-- Strict across-container order on separator keys: invariant N1,
asserted by `validate_containers` (lines 507-508). -/
def GoodSeps (cs : List (Container α β)) : Prop :=
  cs.Chain' fun c d => c.sep < d.sep

/-- The root shape maintained by every sequence of public operations:
either no container yet, or exactly one childless container holding a
non-empty, strictly sorted chain whose length matches `payload_size`. -/
def RootShape (t : BFTree α β) : Prop :=
  t.root.containers = [] ∨
  ∃ c, t.root.containers = [c] ∧ c.child = none ∧ c.payload_first ≠ [] ∧
    c.payload_size = c.payload_first.length ∧ GoodChain c.payload_first

/-- The key written by an operation (`none` for `get`). -/
def writeKey : Op α β → Option α
  | .put k _ => some k
  | .del k => some k
  | .get _ => none

/-- Number of writing operations (`put` plus `del`) in a sequence. -/
def writesCount (ops : List (Op α β)) : Nat :=
  ops.countP fun o => (writeKey o).isSome

/-- Number of `put` operations in a sequence. -/
def putsCount (ops : List (Op α β)) : Nat :=
  ops.countP fun o => match o with | .put _ _ => true | _ => false

/-- One step of the reference model: how an operation updates the
value/kind pair last written for key `k`. -/
def specStep (k : α) (acc : Option (Option β × PType)) :
    Op α β → Option (Option β × PType)
  | .put k2 v => if k2 = k then some (some v, PType.Put) else acc
  | .del k2 => if k2 = k then some (none, PType.Del) else acc
  | .get _ => acc

/-- The value/kind pair the last write on key `k` left behind, if any:
the reference model of what a lookup should see. -/
def specEntry (ops : List (Op α β)) (k : α) : Option (Option β × PType) :=
  ops.foldl (specStep k) none

/-- The entry a payload chain holds for key `k`, as a value/kind pair. -/
def chainFind (ch : List (Payload α β)) (k : α) : Option (Option β × PType) :=
  (ch.find? fun p => p.key = k).map fun p => (p.val, p.type)

/-- The root chain of a tree (the single container's chain in a
reachable state, `[]` before the first write). -/
def rootChain (t : BFTree α β) : List (Payload α β) :=
  match t.root.containers with
  | [] => []
  | c :: _ => c.payload_first

/-- The initial (indeterminate) to final value computation of the C
local `int skip_delete` in `push_to_child` (lines 250, 258-259): it is
assigned 1 when the tree is delete-heavy at pass start and otherwise
keeps its indeterminate initial value `junk`. -/
def push_to_child_skip (junk : Bool) (del_payload_count put_payload_count : Nat) :
    Bool :=
  if del_payload_count > put_payload_count then true else junk

/-- The migration loop of `push_to_child` (lines 260-271), embedded over
the chain after the head.  Each iteration unlinks the current payload;
a Del payload is freed when `skip` holds — and the C code then does not
advance `curr_payload`, so the next iteration reads the freed payload
again (the embedding gives that read the last written value) — while
any other payload is routed to the child and the cursor advances.
Returns the freed payloads and the payloads handed to the child, in
processing order. -/
def push_to_child_loop (skip : Bool) :
    Nat → List (Payload α β) → List (Payload α β) × List (Payload α β)
  | 0, _ => ([], [])
  | _ + 1, [] => ([], [])
  | n + 1, curr :: rest =>
    if curr.type = PType.Del ∧ skip then
      ((push_to_child_loop skip n (curr :: rest)).1.cons curr,
       (push_to_child_loop skip n (curr :: rest)).2)
    else
      ((push_to_child_loop skip n rest).1,
       (push_to_child_loop skip n rest).2.cons curr)

/-- One `push_to_child` pass over a container (lines 244-272): push
`payload_size / 2` payloads starting right after the head, with the
delete-suppression decision `push_to_child_skip junk del put`. -/
def push_to_child_pass (junk : Bool) (del_payload_count put_payload_count : Nat)
    (c : Container α β) : List (Payload α β) × List (Payload α β) :=
  push_to_child_loop (push_to_child_skip junk del_payload_count put_payload_count)
    (c.payload_size / 2) c.payload_first.tail

/-- The strict within-chain order as a `Pairwise` statement; equivalent
to `GoodChain` because the order is transitive. -/
def GoodChainP (ch : List (Payload α β)) : Prop :=
  ch.Pairwise fun p q => p.key < q.key

/-- An empty container, used as the junk default of positional
accesses whose indices are proved in range. -/
def cdefault : Container α β := Container.mk [] 0 none

/-- The separator key of the container at index `i` of a container
array (`default`-padded out of range). -/
def sepAt (cs : List (Container α β)) (i : Nat) : α :=
  (cs.getD i cdefault).sep

/-- The tree produced by `put(0, 1)` on a fresh tree. -/
def treePut01 : BFTree Nat Nat :=
  { root := Node.mk [Container.mk [Payload.mk 0 (some 1) PType.Put] 1 none],
    height := 1, is_migrated := false,
    ctrs := { put_payload_count := 0, del_payload_count := 0,
              key_dtor_calls := 0, val_dtor_calls := 0 } }

/-- The tree produced by `put(0, 0); put(0, 1)` on a fresh tree: the
overwrite frees the newer payload, whose `payload_free` decrements the
never-incremented Put counter from 0 to `2^32 - 1`. -/
def treeOverwrite : BFTree Nat Nat :=
  { root := Node.mk [Container.mk [Payload.mk 0 (some 1) PType.Put] 1 none],
    height := 1, is_migrated := false,
    ctrs := { put_payload_count := 4294967295, del_payload_count := 0,
              key_dtor_calls := 1, val_dtor_calls := 1 } }

/-- The tree produced by `del(0)` on a fresh tree. -/
def treeDel0 : BFTree Nat Nat :=
  { root := Node.mk [Container.mk [Payload.mk 0 none PType.Del] 1 none],
    height := 1, is_migrated := false,
    ctrs := { put_payload_count := 0, del_payload_count := 0,
              key_dtor_calls := 0, val_dtor_calls := 0 } }

/-- Scenario S3 of the spec: put the 10000 keys in ascending order
(zero-padded lexicographic string keys are order-isomorphic to the
numbers 0..9999, so the keys are embedded as those numbers, with
`valNNNN` embedded as the number NNNN). -/
def s3ops : List (Op Nat Nat) := (List.range 10000).map fun i => Op.put i i

/-- Scenario S4 of the spec: delete every key inserted by S3. -/
def s4ops : List (Op Nat Nat) := (List.range 10000).map fun i => Op.del i

/-- The single-container node used to refute the `find_container`
claim: one container with separator key 5. -/
def csC8 : List (Container Nat Nat) :=
  [Container.mk [Payload.mk 5 (some 5) PType.Put] 1 none]

/-- A two-payload container whose pushed half is a single Del payload:
the decision of `push_to_child` on it depends on the indeterminate
`skip_delete` when the tree is not delete-heavy. -/
def cPush1 : Container Nat Nat :=
  Container.mk [Payload.mk 1 (some 1) PType.Put, Payload.mk 5 none PType.Del] 2 none

/-- A four-payload container whose pushed half starts with a Del
payload: a delete-heavy pass frees that payload twice and never reaches
the second pushed payload. -/
def cPush2 : Container Nat Nat :=
  Container.mk [Payload.mk 0 (some 0) PType.Put, Payload.mk 2 none PType.Del,
    Payload.mk 4 none PType.Del, Payload.mk 6 (some 6) PType.Put] 4 none

/-- P1 as `Chain'` and as `Pairwise` agree (the key order is
transitive). -/
theorem goodChain_iff_pairwise (ch : List (Payload α β)) :
    GoodChain ch ↔ GoodChainP ch := by
  have : IsTrans (Payload α β) (fun p q : Payload α β => p.key < q.key) :=
    ⟨fun a b c h1 h2 => lt_trans h1 h2⟩
  exact List.chain'_iff_pairwise

theorem chainFind_nil (k : α) : chainFind ([] : List (Payload α β)) k = none :=
  rfl

theorem goodChainP_nil : GoodChainP ([] : List (Payload α β)) :=
  List.Pairwise.nil

theorem goodChainP_cons {q : Payload α β} {rest : List (Payload α β)} :
    GoodChainP (q :: rest) ↔ (∀ x ∈ rest, q.key < x.key) ∧ GoodChainP rest :=
  List.pairwise_cons

theorem chainFind_cons (q : Payload α β) (rest : List (Payload α β)) (k : α) :
    chainFind (q :: rest) k =
      if q.key = k then some (q.val, q.type) else chainFind rest k := by
  by_cases h : q.key = k <;> simp [chainFind, List.find?_cons, h]

theorem chainFind_eq_none_of {ch : List (Payload α β)} {k : α}
    (h : ∀ q ∈ ch, q.key ≠ k) : chainFind ch k = none := by
  unfold chainFind
  rw [List.find?_eq_none.mpr]
  · rfl
  · intro x hx
    simp [h x hx]

/-- Everything the master induction needs about one chain splice into a
sorted chain: sortedness is preserved, keys of the result, the
pointwise lookup update, the `is_equal` flag, the length change, the
counter effects, and the count of payloads carrying a value. -/
theorem chain_splice_spec (c : TreeCtrs) (p : Payload α β) :
    ∀ ch : List (Payload α β), GoodChainP ch →
    GoodChainP (chain_splice c p ch).1 ∧
    (∀ x ∈ (chain_splice c p ch).1, x.key = p.key ∨ x.key ∈ ch.map Payload.key) ∧
    (∀ k, chainFind (chain_splice c p ch).1 k =
      if k = p.key then some (p.val, p.type) else chainFind ch k) ∧
    ((chain_splice c p ch).2.2 = (chainFind ch p.key).isSome) ∧
    ((chain_splice c p ch).1.length +
      (if (chainFind ch p.key).isSome then 1 else 0) = ch.length + 1) ∧
    ((chain_splice c p ch).2.1 = match chainFind ch p.key with
      | some (v0, _) => payload_free c (Payload.mk p.key v0 p.type)
      | none => c) ∧
    ((chain_splice c p ch).1.countP (fun q => q.val.isSome) +
      (match chainFind ch p.key with
       | some (v0, _) => if v0.isSome then 1 else 0
       | none => 0) =
      ch.countP (fun q => q.val.isSome) + (if p.val.isSome then 1 else 0)) := by
  intro ch
  induction ch with
  | nil =>
    intro _
    refine ⟨List.pairwise_singleton _ _, ?_, ?_, rfl, rfl, rfl, ?_⟩
    · intro x hx
      simp only [chain_splice, List.mem_singleton] at hx
      subst hx
      exact Or.inl rfl
    · intro k
      by_cases h : k = p.key
      · subst h
        simp [chain_splice, chainFind_cons, chainFind_nil]
      · have h2 : ¬(p.key = k) := fun h3 => h h3.symm
        simp [chain_splice, chainFind_cons, chainFind_nil, h, h2]
    · simp only [chain_splice, chainFind_nil, List.countP_cons, List.countP_nil]
      by_cases h : p.val.isSome <;> simp [h]
  | cons q rest ih =>
    intro hp
    rw [goodChainP_cons] at hp
    obtain ⟨hq, hrest⟩ := hp
    obtain ⟨ih1, ih2, ih3, ih4, ih5, ih6, ih7⟩ := ih hrest
    by_cases hle : p.key ≤ q.key
    · by_cases heq : p.key = q.key
      · -- equal key: replace in place
        have hfound : chainFind (q :: rest) p.key = some (q.val, q.type) := by
          rw [chainFind_cons, if_pos heq.symm]
        simp only [chain_splice, if_pos hle, if_pos heq, payload_replace, hfound]
        refine ⟨?_, ?_, ?_, ?_, ?_, ?_, ?_⟩
        · rw [goodChainP_cons]
          exact ⟨fun x hx => hq x hx, hrest⟩
        · intro x hx
          rcases List.mem_cons.mp hx with hx1 | hx2
          · subst hx1
            exact Or.inr (by simp)
          · refine Or.inr ?_
            simp only [List.map_cons, List.mem_cons, List.mem_map]
            exact Or.inr ⟨x, hx2, rfl⟩
        · intro k
          by_cases hk : k = p.key
          · subst hk
            rw [chainFind_cons, if_pos heq.symm, if_pos rfl]
          · have hqk : ¬(q.key = k) := fun h3 => hk (heq.trans h3).symm
            rw [chainFind_cons, if_neg hqk, if_neg hk, chainFind_cons, if_neg hqk]
        · rfl
        · simp
        · trivial
        · simp only [List.countP_cons]
          by_cases h1 : p.val.isSome <;> by_cases h2 : q.val.isSome <;>
            simp [h1, h2] <;> omega
      · -- new least element of the scanned zone: insert before q
        have hlt : p.key < q.key := lt_of_le_of_ne hle heq
        have hnone : chainFind (q :: rest) p.key = none := by
          rw [chainFind_cons, if_neg (fun h3 => heq h3.symm)]
          exact chainFind_eq_none_of fun x hx =>
            ne_of_gt (lt_trans hlt (hq x hx))
        simp only [chain_splice, if_pos hle, if_neg heq, hnone]
        refine ⟨?_, ?_, ?_, ?_, ?_, ?_, ?_⟩
        · rw [goodChainP_cons]
          refine ⟨?_, goodChainP_cons.mpr ⟨hq, hrest⟩⟩
          intro x hx
          rcases List.mem_cons.mp hx with hx1 | hx2
          · subst hx1
            exact hlt
          · exact lt_trans hlt (hq x hx2)
        · intro x hx
          rcases List.mem_cons.mp hx with hx1 | hx2
          · subst hx1
            exact Or.inl rfl
          · refine Or.inr ?_
            simp only [List.map_cons, List.mem_cons, List.mem_map]
            rcases List.mem_cons.mp hx2 with hy1 | hy2
            · subst hy1
              exact Or.inl rfl
            · exact Or.inr ⟨x, hy2, rfl⟩
        · intro k
          by_cases hk : k = p.key
          · subst hk
            rw [chainFind_cons, if_pos rfl]
          · rw [chainFind_cons, if_neg (fun h3 => hk h3.symm), if_neg hk]
        · rfl
        · simp
        · trivial
        · simp only [List.countP_cons]
          by_cases h1 : p.val.isSome <;> simp [h1] <;> omega
    · -- scan past q and recurse
      have hgt : q.key < p.key := lt_of_not_le hle
      have hqp : ¬(q.key = p.key) := ne_of_lt hgt
      have hstep : chainFind (q :: rest) p.key = chainFind rest p.key := by
        rw [chainFind_cons, if_neg hqp]
      simp only [chain_splice, if_neg hle, hstep]
      refine ⟨?_, ?_, ?_, ih4, ?_, ih6, ?_⟩
      · rw [goodChainP_cons]
        refine ⟨?_, ih1⟩
        intro x hx
        rcases ih2 x hx with h1 | h2
        · rw [h1]
          exact hgt
        · rw [List.mem_map] at h2
          obtain ⟨y, hy, hxy⟩ := h2
          rw [← hxy]
          exact hq y hy
      · intro x hx
        rcases List.mem_cons.mp hx with hx1 | hx2
        · subst hx1
          exact Or.inr (by simp)
        · rcases ih2 x hx2 with h1 | h2
          · exact Or.inl h1
          · refine Or.inr ?_
            simp only [List.map_cons, List.mem_cons]
            exact Or.inr h2
      · intro k
        by_cases hk : k = q.key
        · subst hk
          rw [chainFind_cons, if_pos rfl, if_neg hqp, chainFind_cons, if_pos rfl]
        · have hqk3 : ¬(q.key = k) := fun h3 => hk h3.symm
          rw [chainFind_cons, if_neg hqk3, ih3 k, chainFind_cons, if_neg hqk3]
      · simp only [List.length_cons]
        omega
      · simp only [List.countP_cons]
        by_cases h2 : q.val.isSome <;> simp [h2] <;> omega

/-- On a sorted chain holding an entry for `k`, the `get_payload` scan
finds that entry with `is_equal = 1`, whatever the running
predecessor. -/
theorem get_payload_loop_found (k : α) (v0 : Option β) (ty0 : PType) :
    ∀ (ch : List (Payload α β)) (prev : Option (Payload α β)), GoodChainP ch →
      chainFind ch k = some (v0, ty0) →
      get_payload_loop k prev ch = (some (Payload.mk k v0 ty0), true) := by
  intro ch
  induction ch with
  | nil =>
    intro prev _ hf
    rw [chainFind_nil] at hf
    exact absurd hf (by simp)
  | cons q rest ih =>
    intro prev hp hf
    rw [goodChainP_cons] at hp
    obtain ⟨hq, hrest⟩ := hp
    rw [chainFind_cons] at hf
    by_cases hqk : q.key = k
    · rw [if_pos hqk] at hf
      injection hf with hf2
      have hv : q.val = v0 := congrArg Prod.fst hf2
      have hty : q.type = ty0 := congrArg Prod.snd hf2
      have hqe : q = Payload.mk k v0 ty0 := by
        cases q
        simp only [Payload.mk.injEq]
        exact ⟨hqk, hv, hty⟩
      unfold get_payload_loop
      rw [if_pos (le_of_eq hqk.symm), if_pos hqk.symm, hqe]
    · rw [if_neg hqk] at hf
      have hklt : q.key < k := by
        rcases lt_trichotomy q.key k with h1 | h1 | h1
        · exact h1
        · exact absurd h1 hqk
        · have : chainFind rest k = none :=
            chainFind_eq_none_of fun x hx => ne_of_gt (lt_trans h1 (hq x hx))
          rw [this] at hf
          exact absurd hf (by simp)
      have hnle : ¬(k ≤ q.key) := not_le_of_gt hklt
      simp only [get_payload_loop, if_neg hnle]
      exact ih (some q) hrest hf

/-- On a sorted chain with no entry for `k`, the `get_payload` scan
reports `is_equal = 0`. -/
theorem get_payload_loop_none (k : α) :
    ∀ (ch : List (Payload α β)) (prev : Option (Payload α β)), GoodChainP ch →
      chainFind ch k = none →
      (get_payload_loop k prev ch).2 = false := by
  intro ch
  induction ch with
  | nil =>
    intro prev _ _
    rfl
  | cons q rest ih =>
    intro prev hp hf
    rw [goodChainP_cons] at hp
    obtain ⟨hq, hrest⟩ := hp
    rw [chainFind_cons] at hf
    by_cases hqk : q.key = k
    · rw [if_pos hqk] at hf
      exact absurd hf (by simp)
    · rw [if_neg hqk] at hf
      by_cases hle : k ≤ q.key
      · have hne : ¬(k = q.key) := fun h3 => hqk h3.symm
        simp only [get_payload_loop, if_pos hle, if_neg hne]
      · simp only [get_payload_loop, if_neg hle]
        exact ih (some q) hrest hf

/-- `find_container` on a node with at most one container always
answers index 0 (this covers every reachable root). -/
theorem find_container_zero (cs : List (Container α β)) (k : α)
    (h : cs.length ≤ 1) : find_container (Node.mk cs) k 0 = 0 := by
  match cs with
  | [] => rfl
  | [c] =>
    by_cases h2 : k < c.sep <;>
      simp [find_container, find_container_loop, Node.containers, h2]
  | c :: d :: tl => simp at h

/-- `container_get` at the unique childless container of a root node:
the outcome is decided by the chain entry for the key. -/
theorem container_get_root {c : Container α β} (hchild : c.child = none)
    (hgood : GoodChainP c.payload_first) (k : α) :
    container_get (Node.mk [c]) 0 k =
      (match chainFind c.payload_first k with
       | some (v0, PType.Put) => some (Payload.mk k v0 PType.Put)
       | _ => none) := by
  rcases hf : chainFind c.payload_first k with _ | ⟨v0, ty0⟩
  · have h2 : (get_payload k c.payload_first).2 = false := by
      rw [get_payload]
      exact get_payload_loop_none k c.payload_first none hgood hf
    rcases hgp : get_payload k c.payload_first with ⟨r1, r2⟩
    rw [hgp] at h2
    subst h2
    rw [container_get]
    simp only [Node.containers, List.get?]
    rw [hgp]
    rcases r1 with _ | r1
    all_goals
      split
      · rename_i curr heq9
        exfalso
        simp at heq9
      · rename_i heq9
        exfalso
        simp at heq9
      · split
        · rename_i child hsome9
          rw [hchild] at hsome9
          exact Option.noConfusion hsome9
        · rfl
  · have hgp : get_payload k c.payload_first = (some (Payload.mk k v0 ty0), true) := by
      rw [get_payload]
      exact get_payload_loop_found k v0 ty0 c.payload_first none hgood hf
    rw [container_get]
    simp only [Node.containers, List.get?]
    rw [hgp]
    cases ty0 <;> simp

/-- What `bftree_get` answers on any reachable tree shape: exactly the
root-chain entry, with Del masking. -/
theorem bftree_get_spec {t : BFTree α β} (h : RootShape t) (k : α) :
    bftree_get t k =
      (match chainFind (rootChain t) k with
       | some (v0, PType.Put) => v0
       | _ => none) := by
  rcases h with h0 | ⟨c, hc, hchild, _, _, hgood⟩
  · have hroot : t.root = Node.mk [] := by
      rw [← node_eta t.root, h0]
    rw [bftree_get, hroot]
    have hrc : rootChain t = [] := by
      rw [rootChain, h0]
    rw [hrc, chainFind_nil]
    rw [container_get]
    simp [Node.containers, find_container, find_container_loop, List.get?]
  · have hroot : t.root = Node.mk [c] := by
      rw [← node_eta t.root, hc]
    have hrc : rootChain t = c.payload_first := by
      rw [rootChain, hc]
    have hgp : GoodChainP c.payload_first :=
      (goodChain_iff_pairwise c.payload_first).mp hgood
    rw [bftree_get, hroot, find_container_zero [c] k (by simp),
      container_get_root hchild hgp k, hrc]
    rcases chainFind c.payload_first k with _ | ⟨v0, ty0⟩
    · rfl
    · cases ty0 <;> rfl

theorem specEntry_nil (k : α) : specEntry ([] : List (Op α β)) k = none :=
  rfl

theorem specEntry_append_one (ops : List (Op α β)) (op : Op α β) (k : α) :
    specEntry (ops ++ [op]) k = specStep k (specEntry ops k) op := by
  rw [specEntry, specEntry, List.foldl_append]
  rfl

theorem foldl_specStep_no_write {k : α} :
    ∀ (l : List (Op α β)) (a : Option (Option β × PType)),
      (∀ op ∈ l, writeKey op ≠ some k) → l.foldl (specStep k) a = a := by
  intro l
  induction l with
  | nil => intro a _; rfl
  | cons op rest ih =>
    intro a hw
    rw [List.foldl_cons]
    have h1 : specStep k a op = a := by
      cases op with
      | put k2 v =>
        have : ¬(k2 = k) := fun h3 =>
          hw (Op.put k2 v) (List.mem_cons_self _ _) (by rw [writeKey, h3])
        simp [specStep, this]
      | del k2 =>
        have : ¬(k2 = k) := fun h3 =>
          hw (Op.del k2) (List.mem_cons_self _ _) (by rw [writeKey, h3])
        simp [specStep, this]
      | get k2 => rfl
    rw [h1]
    exact ih a fun op2 h2 => hw op2 (List.mem_cons_of_mem _ h2)

theorem specEntry_append (l1 l2 : List (Op α β)) (k : α) :
    specEntry (l1 ++ l2) k = l2.foldl (specStep k) (specEntry l1 k) := by
  rw [specEntry, specEntry, List.foldl_append]

theorem writesCount_append (l1 l2 : List (Op α β)) :
    writesCount (l1 ++ l2) = writesCount l1 + writesCount l2 :=
  List.countP_append _ _ _

theorem putsCount_append (l1 l2 : List (Op α β)) :
    putsCount (l1 ++ l2) = putsCount l1 + putsCount l2 :=
  List.countP_append _ _ _

/-- The single container-level step every reachable `put`/`del`
performs: with the reachable root shape and `is_migrated` clear,
`container_insert` at the index `find_container` computes succeeds and
replaces the root by a single childless container holding the spliced
chain. -/
theorem insert_step (thr : Nat) (t : BFTree α β) (hshape : RootShape t)
    (hmig : t.is_migrated = false) (p : Payload α β) :
    container_insert thr t.is_migrated t.ctrs t.root
        (find_container t.root p.key 0) p =
      some (Node.mk [Container.mk (chain_splice t.ctrs p (rootChain t)).1
          (chain_splice t.ctrs p (rootChain t)).1.length none],
        (chain_splice t.ctrs p (rootChain t)).2.1) := by
  rcases hshape with h0 | ⟨c, hc, hchild, hne, hsize, hgood⟩
  · have troot : t.root = Node.mk [] := by rw [← node_eta t.root, h0]
    have hrc : rootChain t = [] := by rw [rootChain, h0]
    rw [troot, hmig, hrc]
    rw [find_container_zero [] p.key (by simp)]
    simp [container_insert, insert_after_container, Node.containers, chain_splice,
      Container.payload_size, Container.child]
  · have troot : t.root = Node.mk [c] := by rw [← node_eta t.root, hc]
    have hrc : rootChain t = c.payload_first := by rw [rootChain, hc]
    have hgp : GoodChainP c.payload_first :=
      (goodChain_iff_pairwise c.payload_first).mp hgood
    obtain ⟨_, _, _, hflag, hlen, _, _⟩ :=
      chain_splice_spec t.ctrs p c.payload_first hgp
    have hlen0 : 0 < c.payload_first.length := List.length_pos.mpr hne
    rw [troot, hmig, hrc]
    rw [find_container_zero [c] p.key (by simp)]
    have hidx : ¬((0 : Nat) ≥ ([c] : List (Container α β)).length) := by simp
    rw [container_insert]
    simp only [Node.containers, if_neg hidx, List.getD, List.get?, Option.getD]
    have hsz : (if (chain_splice t.ctrs p c.payload_first).2.2 then
          c.payload_size else c.payload_size + 1) =
        (chain_splice t.ctrs p c.payload_first).1.length := by
      rw [hflag, hsize]
      rcases hch : (chainFind c.payload_first p.key).isSome with _ | _
      · rw [hch] at hlen
        simp at hlen
        simp [hlen]
      · rw [hch] at hlen
        simp at hlen
        simp [hlen]
    rw [hsz, hchild]
    simp

theorem rootShape_goodChainP {t : BFTree α β} (hshape : RootShape t) :
    GoodChainP (rootChain t) := by
  rcases hshape with h0 | ⟨c, hc, _, _, _, hgood⟩
  · rw [rootChain, h0]
    exact goodChainP_nil
  · rw [rootChain, hc]
    exact (goodChain_iff_pairwise c.payload_first).mp hgood

theorem runOps_append_one (thr : Nat) (ops : List (Op α β)) (op : Op α β) :
    runOps thr (ops ++ [op]) =
      (runOps thr ops).bind fun t => applyOp thr t op := by
  rw [runOps, runOps, List.foldlM_append]
  rcases h : List.foldlM (applyOp thr) bftree_create ops with _ | t
  · rfl
  · simp [List.foldlM]

/-- Everything the master induction needs about one write operation on
a reachable tree: the insertion succeeds, the new tree keeps the
reachable shape, and the chain and counters evolve as the chain splice
says. -/
theorem write_step (thr : Nat) (t : BFTree α β) (hshape : RootShape t)
    (hmig : t.is_migrated = false) (p : Payload α β) :
    ∃ root2 ctrs2,
      container_insert thr t.is_migrated t.ctrs t.root
          (find_container t.root p.key 0) p = some (root2, ctrs2) ∧
      RootShape { t with root := root2, ctrs := ctrs2 } ∧
      rootChain { t with root := root2, ctrs := ctrs2 } =
        (chain_splice t.ctrs p (rootChain t)).1 ∧
      (∀ k, chainFind (chain_splice t.ctrs p (rootChain t)).1 k =
        if k = p.key then some (p.val, p.type) else chainFind (rootChain t) k) ∧
      ctrs2.key_dtor_calls + (chain_splice t.ctrs p (rootChain t)).1.length =
        t.ctrs.key_dtor_calls + (rootChain t).length + 1 ∧
      ctrs2.val_dtor_calls +
          (chain_splice t.ctrs p (rootChain t)).1.countP (fun q => q.val.isSome) =
        t.ctrs.val_dtor_calls + (rootChain t).countP (fun q => q.val.isSome) +
          (if p.val.isSome then 1 else 0) := by
  have hgp : GoodChainP (rootChain t) := rootShape_goodChainP hshape
  obtain ⟨hs1, _, hs3, hs4, hs5, hs6, hs7⟩ :=
    chain_splice_spec t.ctrs p (rootChain t) hgp
  refine ⟨_, _, insert_step thr t hshape hmig p, ?_, ?_, hs3, ?_, ?_⟩
  · refine Or.inr ⟨_, rfl, rfl, ?_, rfl, ?_⟩
    · have hlen : 0 < (chain_splice t.ctrs p (rootChain t)).1.length := by
        rcases hf : (chainFind (rootChain t) p.key).isSome with _ | _
        · rw [hf] at hs5
          simp at hs5
          omega
        · rw [hf] at hs5
          simp at hs5
          have hne : rootChain t ≠ [] := by
            intro h0
            rw [h0, chainFind_nil] at hf
            simp at hf
          have := List.length_pos.mpr hne
          omega
      exact List.length_pos.mp hlen
    · simp only [Container.payload_first]
      exact (goodChain_iff_pairwise _).mpr hs1
  · rw [rootChain]
    simp [Node.containers, Container.payload_first]
  · rcases hf : chainFind (rootChain t) p.key with _ | ⟨v0, ty0⟩
    · rw [hf] at hs6 hs5
      simp at hs6 hs5
      rw [hs6]
      omega
    · rw [hf] at hs6 hs5
      simp at hs6 hs5
      rw [hs6]
      simp [payload_free]
      omega
  · rcases hf : chainFind (rootChain t) p.key with _ | ⟨v0, ty0⟩
    · rw [hf] at hs6 hs7
      simp at hs6 hs7
      rw [hs6]
      omega
    · rw [hf] at hs6 hs7
      simp at hs6 hs7
      rw [hs6]
      simp [payload_free]
      rcases hv0 : v0.isSome with _ | _ <;> simp [hv0] at hs7 ⊢ <;> omega

/-- The master invariant of every reachable state: running any
sequence of public operations from `bftree_create` succeeds (the
overflow branch is never taken), keeps the degenerate root shape with
height 1 and `is_migrated` clear, leaves the root chain agreeing
pointwise with the reference model `specEntry`, and keeps the
destructor instrumentation in step with the chain. -/
theorem runOps_spec (thr : Nat) (ops : List (Op α β)) :
    ∃ t : BFTree α β, runOps thr ops = some t ∧ RootShape t ∧ t.height = 1 ∧
      t.is_migrated = false ∧
      (∀ k, chainFind (rootChain t) k = specEntry ops k) ∧
      t.ctrs.key_dtor_calls + (rootChain t).length = writesCount ops ∧
      t.ctrs.val_dtor_calls + (rootChain t).countP (fun q => q.val.isSome) =
        putsCount ops := by
  induction ops using List.reverseRecOn with
  | nil =>
    exact ⟨bftree_create, rfl, Or.inl rfl, rfl, rfl, fun k => rfl, rfl, rfl⟩
  | append_singleton ops op ih =>
    obtain ⟨t, hrun, hshape, hh, hmig, hfind, hkey, hval⟩ := ih
    rw [runOps_append_one, hrun]
    cases op with
    | get k2 =>
      refine ⟨t, rfl, hshape, hh, hmig, ?_, ?_, ?_⟩
      · intro k
        rw [specEntry_append_one, hfind k]
        rfl
      · rw [writesCount_append, ← hkey]
        have h0 : writesCount ([Op.get k2] : List (Op α β)) = 0 := rfl
        omega
      · rw [putsCount_append, ← hval]
        have h0 : putsCount ([Op.get k2] : List (Op α β)) = 0 := rfl
        omega
    | put k2 v =>
      obtain ⟨root2, ctrs2, hin, hsh2, hrc2, hcf2, hk2, hv2⟩ :=
        write_step thr t hshape hmig (payload_create k2 (some v) PType.Put)
      refine ⟨{ t with root := root2, ctrs := ctrs2 }, ?_, hsh2, hh, hmig,
        ?_, ?_, ?_⟩
      · show bftree_put thr t k2 v = _
        rw [bftree_put]
        rw [hin]
      · intro k
        rw [hrc2, hcf2 k, specEntry_append_one, hfind k]
        simp only [payload_create]
        by_cases hk : k = k2
        · subst hk
          rw [if_pos rfl]
          simp [specStep]
        · rw [if_neg hk]
          have : ¬(k2 = k) := fun h3 => hk h3.symm
          simp [specStep, this]
      · rw [hrc2, writesCount_append, ← hkey]
        have h0 : writesCount [Op.put k2 v] = 1 := rfl
        rw [h0]
        dsimp only
        omega
      · rw [hrc2, putsCount_append, ← hval]
        have h0 : putsCount [Op.put k2 v] = 1 := rfl
        have hg : (if (payload_create k2 (some v) PType.Put : Payload α β).val.isSome
            then (1 : Nat) else 0) = 1 := rfl
        rw [h0]
        dsimp only
        omega
    | del k2 =>
      obtain ⟨root2, ctrs2, hin, hsh2, hrc2, hcf2, hk2, hv2⟩ :=
        write_step thr t hshape hmig (payload_create k2 none PType.Del)
      refine ⟨{ t with root := root2, ctrs := ctrs2 }, ?_, hsh2, hh, hmig,
        ?_, ?_, ?_⟩
      · show bftree_del thr t k2 = _
        rw [bftree_del]
        rw [hin]
      · intro k
        rw [hrc2, hcf2 k, specEntry_append_one, hfind k]
        simp only [payload_create]
        by_cases hk : k = k2
        · subst hk
          rw [if_pos rfl]
          simp [specStep]
        · rw [if_neg hk]
          have : ¬(k2 = k) := fun h3 => hk h3.symm
          simp [specStep, this]
      · rw [hrc2, writesCount_append, ← hkey]
        have h0 : writesCount ([Op.del k2] : List (Op α β)) = 1 := rfl
        rw [h0]
        dsimp only
        omega
      · rw [hrc2, putsCount_append, ← hval]
        have h0 : putsCount ([Op.del k2] : List (Op α β)) = 0 := rfl
        have hg : (if (payload_create k2 none PType.Del : Payload α β).val.isSome
            then (1 : Nat) else 0) = 0 := rfl
        rw [h0]
        dsimp only
        omega

/-- On a reachable root shape the destroy traversal releases exactly
the root chain, in order. -/
theorem bftree_free_node_shape {t : BFTree α β} (h : RootShape t) :
    bftree_free_node t.root = rootChain t := by
  rcases h with h0 | ⟨c, hc, hchild, _, _, _⟩
  · have troot : t.root = Node.mk [] := by rw [← node_eta t.root, h0]
    rw [troot, rootChain, h0, bftree_free_node]
    simp [free_children]
  · have troot : t.root = Node.mk [c] := by rw [← node_eta t.root, hc]
    have hcc : c = Container.mk c.payload_first c.payload_size none := by
      cases c with
      | mk a b ch =>
        simp only [Container.child] at hchild
        rw [hchild]
        rfl
    rw [troot, rootChain, hc, bftree_free_node, hcc]
    simp [free_children, Node.containers, Container.payload_first]

/-- Folding `payload_free` over a chain adds one key-destructor call
per payload and one value-destructor call per payload carrying a
value. -/
theorem foldl_payload_free_counts (ch : List (Payload α β)) :
    ∀ c : TreeCtrs,
      (ch.foldl payload_free c).key_dtor_calls =
        c.key_dtor_calls + ch.length ∧
      (ch.foldl payload_free c).val_dtor_calls =
        c.val_dtor_calls + ch.countP (fun q => q.val.isSome) := by
  induction ch with
  | nil =>
    intro c
    exact ⟨rfl, rfl⟩
  | cons q rest ih =>
    intro c
    rw [List.foldl_cons]
    obtain ⟨ihk, ihv⟩ := ih (payload_free c q)
    constructor
    · rw [ihk]
      simp [payload_free]
      omega
    · rw [ihv]
      simp only [payload_free, List.countP_cons]
      rcases hq : q.val.isSome with _ | _ <;> simp [hq] <;> omega

/-- On a reachable root shape the only reachable node is the root
itself. -/
theorem allNodes_shape {t : BFTree α β} (h : RootShape t) :
    Node.allNodes t.root = [t.root] := by
  rcases h with h0 | ⟨c, hc, hchild, _, _, _⟩
  · have troot : t.root = Node.mk [] := by rw [← node_eta t.root, h0]
    rw [troot, Node.allNodes]
    simp [allNodes_children]
  · have troot : t.root = Node.mk [c] := by rw [← node_eta t.root, hc]
    have hcc : c = Container.mk c.payload_first c.payload_size none := by
      cases c with
      | mk a b ch =>
        simp only [Container.child] at hchild
        rw [hchild]
        rfl
    rw [troot, Node.allNodes, hcc]
    simp [allNodes_children]

/-- On a reachable root shape all live payloads are the root chain. -/
theorem livePayloads_shape {t : BFTree α β} (h : RootShape t) :
    livePayloads t.root = rootChain t := by
  rw [livePayloads, allNodes_shape h]
  rcases h with h0 | ⟨c, hc, _, _, _, _⟩
  · rw [rootChain, h0]
    simp [h0]
  · rw [rootChain, hc]
    simp [hc]

/-- The reference entry after putting the keys `0 .. n-1` in order,
each with itself as value. -/
theorem specEntry_put_range (n : Nat) (k : Nat) :
    specEntry ((List.range n).map fun i => Op.put i i) k =
      if k < n then some (some k, PType.Put) else none := by
  induction n with
  | zero => simp [specEntry]
  | succ m ih =>
    rw [List.range_succ, List.map_append]
    simp only [List.map_cons, List.map_nil]
    rw [specEntry_append_one, ih]
    by_cases h : m = k
    · subst h
      simp [specStep]
    · by_cases h4 : k < m
      · have h5 : k < m + 1 := by omega
        simp [specStep, h, h4, h5]
      · have h5 : ¬(k < m + 1) := by omega
        simp [specStep, h, h4, h5]

/-- A lookup that finds an equal-key Del payload answers NotFound at
once, whatever child the container has. -/
theorem container_get_del_stops (n : Node α β) (idx : Nat) (k : α)
    (c : Container α β) (p : Payload α β)
    (hg : n.containers.get? idx = some c)
    (hp : get_payload k c.payload_first = (some p, true))
    (hd : p.type = PType.Del) :
    container_get n idx k = none := by
  rw [container_get]
  split
  · rename_i heq
    rw [hg] at heq
  · rename_i c2 heq
    rw [hg] at heq
    injection heq with heq2
    subst heq2
    rw [hp]
    have hnd : ¬(p.type = PType.Put) := by
      rw [hd]
      intro h3
      exact PType.noConfusion h3
    simp [hnd]

/-- The exact splice equation when the chain already holds the key:
every payload of the chain stays in place (the matching one with its
value and kind overwritten), the newer payload is released through
`payload_free` with the swapped-out old value, and `is_equal` is
reported. -/
theorem chain_splice_found (c : TreeCtrs) (p : Payload α β) :
    ∀ ch : List (Payload α β), GoodChainP ch → ∀ (v0 : Option β) (ty0 : PType),
      chainFind ch p.key = some (v0, ty0) →
      chain_splice c p ch =
        (ch.map fun q => if q.key = p.key then Payload.mk q.key p.val p.type else q,
         payload_free c (Payload.mk p.key v0 p.type), true) := by
  intro ch
  induction ch with
  | nil =>
    intro _ v0 ty0 hf
    rw [chainFind_nil] at hf
    exact absurd hf (by simp)
  | cons q rest ih =>
    intro hp v0 ty0 hf
    rw [goodChainP_cons] at hp
    obtain ⟨hq, hrest⟩ := hp
    rw [chainFind_cons] at hf
    by_cases hqk : q.key = p.key
    · rw [if_pos hqk] at hf
      injection hf with hf2
      have hv : q.val = v0 := congrArg Prod.fst hf2
      have hty : q.type = ty0 := congrArg Prod.snd hf2
      have hle : p.key ≤ q.key := le_of_eq hqk.symm
      have heq : p.key = q.key := hqk.symm
      simp only [chain_splice, if_pos hle, if_pos heq, payload_replace]
      have hmap : rest.map
          (fun q2 => if q2.key = p.key then Payload.mk q2.key p.val p.type else q2) =
          rest := by
        have h9 : ∀ x ∈ rest,
            (if x.key = p.key then Payload.mk x.key p.val p.type else x) = id x := by
          intro x hx
          have hne : ¬(x.key = p.key) := by
            rw [← hqk]
            exact ne_of_gt (hq x hx)
          rw [if_neg hne]
          rfl
        rw [List.map_congr_left h9, List.map_id]
      rw [List.map_cons, hmap, if_pos hqk, ← hv]
    · rw [if_neg hqk] at hf
      have hgt : q.key < p.key := by
        rcases lt_trichotomy q.key p.key with h1 | h1 | h1
        · exact h1
        · exact absurd h1 hqk
        · have : chainFind rest p.key = none :=
            chainFind_eq_none_of fun x hx => ne_of_gt (lt_trans h1 (hq x hx))
          rw [this] at hf
          exact absurd hf (by simp)
      have hnle : ¬(p.key ≤ q.key) := not_le_of_gt hgt
      simp only [chain_splice, if_neg hnle]
      rw [ih hrest v0 ty0 hf]
      rw [List.map_cons, if_neg (ne_of_lt hgt)]

/-- Separator keys are monotone over a node satisfying N1. -/
theorem sepAt_mono {cs : List (Container α β)} (hN1 : GoodSeps cs) {i j : Nat}
    (hij : i ≤ j) (hj : j < cs.length) : sepAt cs i ≤ sepAt cs j := by
  rcases eq_or_lt_of_le hij with h | h
  · subst h
    exact le_refl _
  · have hp : cs.Pairwise fun c d => c.sep < d.sep := by
      have ht : IsTrans (Container α β) (fun c d : Container α β => c.sep < d.sep) :=
        ⟨fun a b c h1 h2 => lt_trans h1 h2⟩
      exact List.chain'_iff_pairwise.mp hN1
    have hi : i < cs.length := lt_trans h hj
    have hlt := List.pairwise_iff_get.mp hp ⟨i, hi⟩ ⟨j, hj⟩ h
    have hgi : sepAt cs i = (cs.get ⟨i, hi⟩).sep := by
      rw [sepAt, List.getD_eq_get?, List.get?_eq_get hi]
      rfl
    have hgj : sepAt cs j = (cs.get ⟨j, hj⟩).sep := by
      rw [sepAt, List.getD_eq_get?, List.get?_eq_get hj]
      rfl
    rw [hgi, hgj]
    exact le_of_lt hlt

/-- Full characterisation of the `find_container` scanning loop, over
the remaining suffix of the container array: the stop position is at or
after the start, within bounds, every scanned separator was at or below
the key, and the stopping separator (if in bounds) is above the key. -/
theorem find_container_loop_spec (key : α) (cs : List (Container α β)) :
    ∀ (rest : List (Container α β)) (i : Nat), rest = cs.drop i →
      i ≤ cs.length →
      i ≤ find_container_loop key rest i ∧
      find_container_loop key rest i ≤ cs.length ∧
      (∀ j, i ≤ j → j < find_container_loop key rest i → sepAt cs j ≤ key) ∧
      (find_container_loop key rest i < cs.length →
        key < sepAt cs (find_container_loop key rest i)) := by
  intro rest
  induction rest generalizing cs with
  | nil =>
    intro i hdrop hle
    have hi : cs.length ≤ i := by
      have h2 := congrArg List.length hdrop
      simp [List.length_drop] at h2
      omega
    rw [find_container_loop]
    exact ⟨le_refl i, hle, fun j h1 h2 => absurd (lt_of_le_of_lt h1 h2)
      (lt_irrefl i), fun h2 => absurd (lt_of_le_of_lt hi h2) (lt_irrefl _)⟩
  | cons c rest2 ih =>
    intro i hdrop hle
    have hhead : (cs.drop i).head? = some c := by
      rw [← hdrop]
      rfl
    rw [List.head?_drop] at hhead
    have hilt : i < cs.length := by
      by_contra h
      push_neg at h
      rw [List.drop_eq_nil_of_le h] at hdrop
      exact List.noConfusion hdrop
    have hrest2 : rest2 = cs.drop (i + 1) := by
      have h2 : (cs.drop i).tail = rest2 := by
        rw [← hdrop]
        rfl
      rw [List.tail_drop] at h2
      exact h2.symm
    have hsep : sepAt cs i = c.sep := by
      rw [sepAt, List.getD_eq_get?, List.get?_eq_getElem?, hhead]
      rfl
    rw [find_container_loop]
    by_cases hlt : key < c.sep
    · rw [if_pos hlt]
      exact ⟨le_refl i, le_of_lt hilt,
        fun j h1 h2 => absurd (lt_of_le_of_lt h1 h2) (lt_irrefl i),
        fun _ => hsep ▸ hlt⟩
    · rw [if_neg hlt]
      obtain ⟨ih1, ih2, ih3, ih4⟩ := ih cs (i + 1) hrest2 hilt
      refine ⟨le_trans (Nat.le_succ i) ih1, ih2, ?_, ih4⟩
      intro j h1 h2
      rcases eq_or_lt_of_le h1 with h3 | h3
      · subst h3
        rw [hsep]
        exact le_of_not_lt hlt
      · exact ih3 j h3 h2

/-- The exact contract of `find_container` on an N1 node: the greatest
qualifying index at or after `s` when one exists, and `s - 1` (clamped
at 0) otherwise. -/
theorem find_container_char (cs : List (Container α β)) (key : α) (s : Nat)
    (hN1 : GoodSeps cs) :
    ((∃ i, s ≤ i ∧ i < cs.length ∧ sepAt cs i ≤ key) →
      IsGreatest {i | s ≤ i ∧ i < cs.length ∧ sepAt cs i ≤ key}
        (find_container (Node.mk cs) key s)) ∧
    ((¬ ∃ i, s ≤ i ∧ i < cs.length ∧ sepAt cs i ≤ key) →
      find_container (Node.mk cs) key s = s - 1) := by
  have hfc : find_container (Node.mk cs) key s =
      if find_container_loop key (cs.drop s) s = 0 then 0
      else find_container_loop key (cs.drop s) s - 1 := rfl
  by_cases hs : s ≤ cs.length
  · obtain ⟨h1, h2, h3, h4⟩ := find_container_loop_spec key cs (cs.drop s) s rfl hs
    constructor
    · rintro ⟨i0, hi0s, hi0l, hi0k⟩
      have hib : i0 < find_container_loop key (cs.drop s) s := by
        by_contra hcon
        push_neg at hcon
        have hblen : find_container_loop key (cs.drop s) s < cs.length :=
          lt_of_le_of_lt hcon hi0l
        have h5 := h4 hblen
        have hmono := sepAt_mono hN1 hcon hi0l
        exact absurd (lt_of_lt_of_le h5 hmono) (not_lt_of_le hi0k)
      have hfc2 : find_container (Node.mk cs) key s =
          find_container_loop key (cs.drop s) s - 1 := by
        rw [hfc, if_neg (by omega)]
      rw [hfc2]
      constructor
      · exact ⟨by omega, by omega, h3 _ (by omega) (by omega)⟩
      · intro j hj
        obtain ⟨hjs, hjl, hjk⟩ := hj
        by_contra hcon
        push_neg at hcon
        have hbj : find_container_loop key (cs.drop s) s ≤ j := by omega
        have hblen : find_container_loop key (cs.drop s) s < cs.length :=
          lt_of_le_of_lt hbj hjl
        have h5 := h4 hblen
        have hmono := sepAt_mono hN1 hbj hjl
        exact absurd (lt_of_lt_of_le h5 hmono) (not_lt_of_le hjk)
    · intro hne
      have hbs : find_container_loop key (cs.drop s) s = s := by
        by_contra hcon
        have hbs2 : s < find_container_loop key (cs.drop s) s :=
          lt_of_le_of_ne h1 fun h => hcon h.symm
        exact hne ⟨s, le_refl s, by omega, h3 s (le_refl s) hbs2⟩
      rw [hfc, hbs]
      by_cases h0 : s = 0
      · subst h0
        simp
      · rw [if_neg h0]
  · push_neg at hs
    have hdrop : cs.drop s = [] := List.drop_eq_nil_of_le (le_of_lt hs)
    constructor
    · rintro ⟨i0, hi0s, hi0l, _⟩
      omega
    · intro _
      rw [hfc, hdrop]
      rw [find_container_loop]
      by_cases h0 : s = 0
      · subst h0
        simp
      · rw [if_neg h0]

theorem writesCount_s3 : writesCount s3ops = 10000 := by
  have h : writesCount s3ops = s3ops.length := by
    rw [writesCount, List.countP_eq_length]
    intro a ha
    rw [s3ops, List.mem_map] at ha
    obtain ⟨i, _, rfl⟩ := ha
    rfl
  rw [h, s3ops]
  simp

theorem putsCount_s3 : putsCount s3ops = 10000 := by
  have h : putsCount s3ops = s3ops.length := by
    rw [putsCount, List.countP_eq_length]
    intro a ha
    rw [s3ops, List.mem_map] at ha
    obtain ⟨i, _, rfl⟩ := ha
    rfl
  rw [h, s3ops]
  simp

theorem writesCount_s4 : writesCount s4ops = 10000 := by
  have h : writesCount s4ops = s4ops.length := by
    rw [writesCount, List.countP_eq_length]
    intro a ha
    rw [s4ops, List.mem_map] at ha
    obtain ⟨i, _, rfl⟩ := ha
    rfl
  rw [h, s4ops]
  simp

theorem putsCount_s4 : putsCount s4ops = 0 := by
  rw [putsCount, List.countP_eq_zero]
  intro a ha
  rw [s4ops, List.mem_map] at ha
  obtain ⟨i, _, rfl⟩ := ha
  simp

/-- Destructor accounting over the whole lifetime: after any reachable
run followed by `bftree_free`, the key destructor has run once per
write operation and the value destructor once per `put`. -/
theorem destructor_accounting (thr : Nat) (ops : List (Op α β))
    (t : BFTree α β) (hrun : runOps thr ops = some t) :
    (bftree_free t).key_dtor_calls = writesCount ops ∧
    (bftree_free t).val_dtor_calls = putsCount ops := by
  obtain ⟨t0, hrun0, hshape, _, _, _, hkey, hval⟩ := runOps_spec thr ops
  rw [hrun0] at hrun
  injection hrun with h
  subst h
  rw [bftree_free, bftree_free_node_shape hshape]
  obtain ⟨hk2, hv2⟩ := foldl_payload_free_counts (rootChain t0) t0.ctrs
  constructor
  · rw [hk2, hkey]
  · rw [hv2, hval]

/-- C1: Read-your-writes.  On any tree built by `bftree_create` with a
total-order comparator, if `put(k, v)` is executed and no later
`put(k, _)` or `del(k)` on the same key follows, a subsequent
`bftree_get(k)` returns `v`. -/
theorem c1_read_your_writes (thr : Nat) (k : α) (v : β)
    (ops1 ops2 : List (Op α β)) (t : BFTree α β)
    (hno : ∀ op ∈ ops2, writeKey op ≠ some k)
    (hrun : runOps thr (ops1 ++ Op.put k v :: ops2) = some t) :
    bftree_get t k = some v := by
  obtain ⟨t0, hrun0, hshape, _, _, hfind, _, _⟩ :=
    runOps_spec thr (ops1 ++ Op.put k v :: ops2)
  rw [hrun0] at hrun
  injection hrun with h
  subst h
  rw [bftree_get_spec hshape k, hfind k]
  have hsp : specEntry (ops1 ++ Op.put k v :: ops2) k =
      some (some v, PType.Put) := by
    have hsplit : ops1 ++ Op.put k v :: ops2 = (ops1 ++ [Op.put k v]) ++ ops2 := by
      simp
    rw [hsplit, specEntry_append, foldl_specStep_no_write ops2 _ hno,
      specEntry_append_one]
    simp [specStep]
  rw [hsp]

/-- Witness for C1 at `put(0, 1)` on a fresh tree. -/
theorem c1_read_your_writes_witness : bftree_get treePut01 0 = some 1 :=
  c1_read_your_writes 8 0 1 [] [] treePut01
    (fun op h => absurd h (List.not_mem_nil op)) rfl

/-- C2: Last-writer-wins.  Any operation sequence ending in
`put(k, v)` makes `bftree_get(k)` answer `v`; and when the insert
meets an equal-key payload, the existing payload is overwritten in
place (same chain positions, its value and kind replaced) while the
newer payload object is released through `payload_free` carrying the
swapped-out old value. -/
theorem c2_last_writer_wins :
    (∀ (thr : Nat) (ops : List (Op α β)) (k : α) (v : β) (t : BFTree α β),
      runOps thr (ops ++ [Op.put k v]) = some t → bftree_get t k = some v) ∧
    (∀ (c : TreeCtrs) (p : Payload α β) (ch : List (Payload α β))
        (v0 : Option β) (ty0 : PType), GoodChainP ch →
      chainFind ch p.key = some (v0, ty0) →
      chain_splice c p ch =
        (ch.map fun q => if q.key = p.key then Payload.mk q.key p.val p.type else q,
         payload_free c (Payload.mk p.key v0 p.type), true)) := by
  constructor
  · intro thr ops k v t hrun
    obtain ⟨t0, hrun0, hshape, _, _, hfind, _, _⟩ :=
      runOps_spec thr (ops ++ [Op.put k v])
    rw [hrun0] at hrun
    injection hrun with h
    subst h
    rw [bftree_get_spec hshape k, hfind k, specEntry_append_one]
    simp [specStep]
  · intro c p ch v0 ty0 hg hf
    exact chain_splice_found c p ch hg v0 ty0 hf

/-- Witness for C2 at `put(0, 0); put(0, 1)` on a fresh tree. -/
theorem c2_last_writer_wins_witness : bftree_get treeOverwrite 0 = some 1 :=
  c2_last_writer_wins.1 8 [Op.put 0 0] 0 1 treeOverwrite rfl

/-- C3: Delete masking.  After `del(k)` with no later `put(k, _)` or
`del(k)`, `bftree_get(k)` answers NULL; and a lookup that meets an
equal-key Del payload reports NotFound at once, without descending into
the child. -/
theorem c3_delete_masking :
    (∀ (thr : Nat) (k : α) (ops1 ops2 : List (Op α β)) (t : BFTree α β),
      (∀ op ∈ ops2, writeKey op ≠ some k) →
      runOps thr (ops1 ++ Op.del k :: ops2) = some t →
      bftree_get t k = none) ∧
    (∀ (n : Node α β) (idx : Nat) (k : α) (c : Container α β) (p : Payload α β),
      n.containers.get? idx = some c →
      get_payload k c.payload_first = (some p, true) →
      p.type = PType.Del →
      container_get n idx k = none) := by
  constructor
  · intro thr k ops1 ops2 t hno hrun
    obtain ⟨t0, hrun0, hshape, _, _, hfind, _, _⟩ :=
      runOps_spec thr (ops1 ++ Op.del k :: ops2)
    rw [hrun0] at hrun
    injection hrun with h
    subst h
    rw [bftree_get_spec hshape k, hfind k]
    have hsp : specEntry (ops1 ++ Op.del k :: ops2) k =
        some (none, PType.Del) := by
      have hsplit : ops1 ++ Op.del k :: ops2 = (ops1 ++ [Op.del k]) ++ ops2 := by
        simp
      rw [hsplit, specEntry_append, foldl_specStep_no_write ops2 _ hno,
        specEntry_append_one]
      simp [specStep]
    rw [hsp]
  · intro n idx k c p hg hp hd
    exact container_get_del_stops n idx k c p hg hp hd

/-- Witness for C3 at `del(0)` on a fresh tree. -/
theorem c3_delete_masking_witness : bftree_get treeDel0 0 = none :=
  c3_delete_masking.1 8 0 [] [] treeDel0
    (fun op h => absurd h (List.not_mem_nil op)) rfl

/-- C4: evaluation of the code at the failing input of the Put/Del
counter invariant (T2).  After a single `put` the tree holds one live
Put payload but `put_payload_count` is still 0, because no code path
ever increments the counters; after an overwriting second `put` the
counter has been decremented past zero and wrapped to `2^32 - 1`. -/
theorem c4_counter_accounting_bug :
    runOps 8 [Op.put 0 1] = some treePut01 ∧
    (livePayloads treePut01.root).countP (fun p => p.type = PType.Put) = 1 ∧
    treePut01.ctrs.put_payload_count = 0 ∧
    runOps 8 [Op.put 0 0, Op.put 0 1] = some treeOverwrite ∧
    (livePayloads treeOverwrite.root).countP (fun p => p.type = PType.Put) = 1 ∧
    treeOverwrite.ctrs.put_payload_count = 4294967295 := by
  have hsh1 : RootShape treePut01 :=
    Or.inr ⟨Container.mk [Payload.mk 0 (some 1) PType.Put] 1 none, rfl, rfl,
      by simp [Container.payload_first], rfl, by simp [GoodChain, Container.payload_first]⟩
  have hsh2 : RootShape treeOverwrite :=
    Or.inr ⟨Container.mk [Payload.mk 0 (some 1) PType.Put] 1 none, rfl, rfl,
      by simp [Container.payload_first], rfl, by simp [GoodChain, Container.payload_first]⟩
  refine ⟨rfl, ?_, rfl, rfl, ?_, rfl⟩
  · rw [livePayloads_shape hsh1]
    rfl
  · rw [livePayloads_shape hsh2]
    rfl

/-- C5: evaluation of the code at scenario S3.  Putting the 10000
ascending keys (embedded as the numbers 0..9999, order-isomorphic to
the zero-padded strings under the lexicographic comparator) leaves
every lookup correct, but the height stays 1: the whole load sits in a
single root container and no split ever happens, for every threshold
value. -/
theorem c5_growth_stays_flat (thr : Nat) :
    ∃ t : BFTree Nat Nat, runOps thr s3ops = some t ∧ t.height = 1 ∧
      ∀ i : Nat, bftree_get t i = if i < 10000 then some i else none := by
  obtain ⟨t, hrun, hshape, hh, _, hfind, _, _⟩ := runOps_spec thr s3ops
  refine ⟨t, hrun, hh, ?_⟩
  intro i
  rw [bftree_get_spec hshape i, hfind i, s3ops, specEntry_put_range]
  by_cases h : i < 10000
  · simp [h]
  · simp [h]

/-- C6: structural invariants N1, P1, P2.  After any sequence of
public operations from `bftree_create`, every node reachable from the
root has its containers strictly ordered by separator key, every
container chain strictly increasing by key, and every container
non-empty. -/
theorem c6_structural_invariants (thr : Nat) (ops : List (Op α β))
    (t : BFTree α β) (hrun : runOps thr ops = some t) :
    ∀ n ∈ Node.allNodes t.root,
      GoodSeps n.containers ∧
      ∀ c ∈ n.containers, GoodChain c.payload_first ∧ c.payload_first ≠ [] := by
  obtain ⟨t0, hrun0, hshape, _, _, _, _, _⟩ := runOps_spec thr ops
  rw [hrun0] at hrun
  injection hrun with h
  subst h
  rw [allNodes_shape hshape]
  intro n hn
  rw [List.mem_singleton] at hn
  subst hn
  rcases hshape with h0 | ⟨c, hc, _, hne, _, hgood⟩
  · rw [h0]
    exact ⟨List.chain'_nil, fun c2 hc2 => absurd hc2 (List.not_mem_nil c2)⟩
  · rw [hc]
    refine ⟨List.chain'_singleton _, ?_⟩
    intro c2 hc2
    rw [List.mem_singleton] at hc2
    subst hc2
    exact ⟨hgood, hne⟩

/-- Witness for C6 at `put(0, 1)` on a fresh tree, instantiated at the
root node and its single container. -/
theorem c6_structural_invariants_witness :
    GoodSeps treePut01.root.containers ∧
    GoodChain (Container.mk [Payload.mk 0 (some 1) PType.Put] 1 none
        : Container Nat Nat).payload_first ∧
    (Container.mk [Payload.mk 0 (some 1) PType.Put] 1 none
        : Container Nat Nat).payload_first ≠ [] := by
  have h := c6_structural_invariants 8 [Op.put 0 1] treePut01 rfl
  have hsh : RootShape treePut01 :=
    Or.inr ⟨Container.mk [Payload.mk 0 (some 1) PType.Put] 1 none, rfl, rfl,
      by simp [Container.payload_first], rfl,
      by simp [GoodChain, Container.payload_first]⟩
  have hmem : treePut01.root ∈ Node.allNodes treePut01.root := by
    rw [allNodes_shape hsh]
    exact List.mem_singleton.mpr rfl
  obtain ⟨h1, h2⟩ := h treePut01.root hmem
  exact ⟨h1, (h2 _ (List.mem_singleton.mpr rfl)).1,
    (h2 _ (List.mem_singleton.mpr rfl)).2⟩

/-- C7: destructor accounting.  With counting destructors installed,
over the lifetime of a tree through `bftree_free`, key-destructor
invocations equal `put` plus `del` calls and value-destructor
invocations equal `put` calls; in particular after the 10000 S3 puts,
the 10000 S4 dels and destroy, the counts are 20000 and 10000. -/
theorem c7_destructor_accounting :
    (∀ (thr : Nat) (ops : List (Op α β)) (t : BFTree α β),
      runOps thr ops = some t →
      (bftree_free t).key_dtor_calls = writesCount ops ∧
      (bftree_free t).val_dtor_calls = putsCount ops) ∧
    (∃ t : BFTree Nat Nat, runOps 8 (s3ops ++ s4ops) = some t ∧
      (bftree_free t).key_dtor_calls = 20000 ∧
      (bftree_free t).val_dtor_calls = 10000) := by
  constructor
  · intro thr ops t hrun
    exact destructor_accounting thr ops t hrun
  · obtain ⟨t, hrun, _, _, _, _, _, _⟩ := runOps_spec 8 (s3ops ++ s4ops)
    obtain ⟨hk, hv⟩ := destructor_accounting 8 (s3ops ++ s4ops) t hrun
    refine ⟨t, hrun, ?_, ?_⟩
    · rw [hk, writesCount_append, writesCount_s3, writesCount_s4]
    · rw [hv, putsCount_append, putsCount_s3, putsCount_s4]

/-- Witness for C7 at `put(0, 1)` on a fresh tree. -/
theorem c7_destructor_accounting_witness :
    (bftree_free treePut01).key_dtor_calls = writesCount [Op.put 0 1] ∧
    (bftree_free treePut01).val_dtor_calls = putsCount [Op.put 0 1] :=
  (c7_destructor_accounting (α := Nat) (β := Nat)).1 8 [Op.put 0 1] treePut01 rfl

/-- C8 counterexample: on the N1, P2 node with the single separator 5,
query key 3 and start index 1, no index at or after 1 has its
separator at or below the key, yet `find_container` answers 0, not the
claimed start index 1. -/
theorem c8_find_container_counterexample :
    GoodSeps csC8 ∧ (∀ c ∈ csC8, c.payload_first ≠ []) ∧
    (¬ ∃ i, 1 ≤ i ∧ i < csC8.length ∧ sepAt csC8 i ≤ (3 : Nat)) ∧
    find_container (Node.mk csC8) 3 1 = 0 ∧ (0 : Nat) ≠ 1 := by
  refine ⟨?_, ?_, ?_, rfl, by omega⟩
  · simp [GoodSeps, csC8]
  · intro c hc
    rw [csC8, List.mem_singleton] at hc
    subst hc
    simp [Container.payload_first]
  · rintro ⟨i, h1, h2, _⟩
    rw [csC8] at h2
    simp at h2
    omega

/-- C8 (amended): on a node whose containers satisfy N1 (and P2, so
that separator keys exist), `find_container` returns the largest index
`i ≥ s` whose separator compares at or below the key; when no such
index exists it returns `s - 1` (clamped to 0 when `s = 0`), not `s`. -/
theorem c8_find_container_amended (cs : List (Container α β)) (key : α) (s : Nat)
    (hN1 : GoodSeps cs) (hP2 : ∀ c ∈ cs, c.payload_first ≠ []) :
    ((∃ i, s ≤ i ∧ i < cs.length ∧ sepAt cs i ≤ key) →
      IsGreatest {i | s ≤ i ∧ i < cs.length ∧ sepAt cs i ≤ key}
        (find_container (Node.mk cs) key s)) ∧
    ((¬ ∃ i, s ≤ i ∧ i < cs.length ∧ sepAt cs i ≤ key) →
      find_container (Node.mk cs) key s = s - 1) :=
  find_container_char cs key s hN1

/-- Witness for the amended C8 on the same node with key 5 and start
index 0: index 0 qualifies and is returned as the greatest. -/
theorem c8_find_container_amended_witness :
    IsGreatest {i | 0 ≤ i ∧ i < csC8.length ∧ sepAt csC8 i ≤ (5 : Nat)}
      (find_container (Node.mk csC8) 5 0) :=
  (c8_find_container_amended csC8 5 0 (by simp [GoodSeps, csC8])
    (by
      intro c hc
      rw [csC8, List.mem_singleton] at hc
      subst hc
      simp [Container.payload_first])).1
    ⟨0, by omega, by decide, by decide⟩

/-- C9: evaluation of `push_to_child`'s delete-suppression at the
failing inputs.  With `del_payload_count ≤ put_payload_count` the
discard decision follows the indeterminate initial value of the C
local `skip_delete` (junk true drops the pushed Del marker, junk false
pushes it), so it is not well-defined; and in the delete-heavy case
the loop frees the same first Del payload twice without advancing, so
the second pushed Del is neither discarded nor pushed. -/
theorem c9_skip_delete_bug :
    push_to_child_pass true 0 0 cPush1 = ([Payload.mk 5 none PType.Del], []) ∧
    push_to_child_pass false 0 0 cPush1 = ([], [Payload.mk 5 none PType.Del]) ∧
    push_to_child_pass true 1 0 cPush2 =
      ([Payload.mk 2 none PType.Del, Payload.mk 2 none PType.Del], []) ∧
    push_to_child_pass false 1 0 cPush2 =
      ([Payload.mk 2 none PType.Del, Payload.mk 2 none PType.Del], []) :=
  ⟨rfl, rfl, rfl, rfl⟩

/-- C10: implicit degenerate-shape invariant.  For every sequence of
public operations from `bftree_create`, the run succeeds — i.e. the
overflow branch of `container_insert` that would invoke
`push_to_child`, `split_container` and hence `try_split_node` is never
entered (the embedding returns `none` exactly when it is) — and the
resulting tree has at most one root container, no child nodes, all
live payloads in the single sorted root chain, height 1 and
`is_migrated` 0. -/
theorem c10_degenerate_shape (thr : Nat) (ops : List (Op α β)) :
    ∃ t : BFTree α β, runOps thr ops = some t ∧
      t.root.containers.length ≤ 1 ∧
      (∀ c ∈ t.root.containers, c.child = none) ∧
      t.height = 1 ∧ t.is_migrated = false ∧
      Node.allNodes t.root = [t.root] ∧
      GoodChain (rootChain t) ∧
      livePayloads t.root = rootChain t := by
  obtain ⟨t, hrun, hshape, hh, hmig, _, _, _⟩ := runOps_spec thr ops
  refine ⟨t, hrun, ?_, ?_, hh, hmig, allNodes_shape hshape,
    ?_, livePayloads_shape hshape⟩
  · rcases hshape with h0 | ⟨c, hc, _, _, _, _⟩
    · rw [h0]
      simp
    · rw [hc]
      simp
  · intro c2 hc2
    rcases hshape with h0 | ⟨c, hc, hchild, _, _, _⟩
    · rw [h0] at hc2
      exact absurd hc2 (List.not_mem_nil c2)
    · rw [hc, List.mem_singleton] at hc2
      subst hc2
      exact hchild
  · rcases hshape with h0 | ⟨c, hc, _, _, _, hgood⟩
    · rw [rootChain, h0]
      exact List.chain'_nil
    · rw [rootChain, hc]
      exact hgood

end BufferedTree
